import Mathlib

/-!
Shallow embedding of the Akuna quant-trading-challenge market maker
(`src/my_code.py`, plus the data classes of `src/akuna_framework.py`),
together with theorems about its pricing, quoting and hedging behaviour.

Conventions of the embedding:
* Python `float` values are modelled as exact rationals (`ℚ`), Python `int`
  as `ℤ`; `round` is half-to-even, as in Python 3.
* Python `dict`s are modelled as insertion-ordered association lists
  (`List (ℤ × _)`); lookups and in-place updates act on the first matching
  key, which coincides with `dict` behaviour since dict keys are unique.
* Code paths that raise at runtime (an unresolvable underlying id, and the
  two defects in `make_market`: the calm branch reading the local `spread`
  before assignment, and the expiry branch reading the undefined name
  `intrinsic` after assigning `intrisic`) are modelled by `Option`/`Except`
  error results.
-/

namespace AkunaMM

/-- `OptionType` from the framework (`CALL` / `PUT`). -/
inductive OptionType
  | CALL
  | PUT
deriving DecidableEq

/-- The `Option` dataclass of the framework.  It is named `Opt` here only
because `Option` is taken by Lean's core library; the fields keep the
source names. -/
structure Opt where
  option_id : ℤ
  option_type : OptionType
  steps_until_expiry : ℤ
  strike : ℤ
  underlying_id : ℤ
  underlying_name : String
deriving DecidableEq

/-- The `Underlying` dataclass of the framework (fields in source order). -/
structure Underlying where
  name : String
  underlying_id : ℤ
  valuation : ℚ
  down_move_probability : ℚ
  down_move_step : ℚ
  noise_std_dev : ℚ
  up_move_probability : ℚ
  up_move_step : ℚ
deriving DecidableEq

/-- `Underlying.__post_init__`: the four validation checks in source order.
The result is the message of the `ValueError` raised, or `none` when
construction succeeds. -/
def underlyingPostInit (u : Underlying) : Option String :=
  if u.down_move_step ≤ 0 ∨ u.up_move_step ≤ 0 then
    some "Down/up move steps must both be positive"
  else if u.down_move_probability ≤ 0 ∨ u.up_move_probability ≤ 0 then
    some "Down/up move probabilities must both be positive"
  else if u.down_move_probability + u.up_move_probability ≠ 1 then
    some "Down and up move probabilities must sum to 1"
  else if 1/100000 <
      u.down_move_probability * u.down_move_step
        - u.up_move_probability * u.up_move_step then
    some "Underlying has drift"
  else
    none

/-- An `Underlying` whose construction succeeds (no `ValueError`). -/
def underlyingOk (u : Underlying) : Prop := underlyingPostInit u = none

instance (u : Underlying) : Decidable (underlyingOk u) := by
  unfold underlyingOk; infer_instance

/-- Terminal payoff as written in `price_option` and in the inline
`price_with_spot` closures: `max(x - strike, 0)` for a call,
`max(strike - x, 0)` for a put. -/
def intrinsicValue (ot : OptionType) (strike spot : ℚ) : ℚ :=
  match ot with
  | .CALL => max (spot - strike) 0
  | .PUT => max (strike - spot) 0

/-- Payoff of the terminal node with `j` up-moves out of `steps`:
`final_price = spot + j * up_step - (steps - j) * down_step`. -/
def latticePayoff (ot : OptionType) (strike spot up down : ℚ) (steps j : ℕ) : ℚ :=
  intrinsicValue ot strike (spot + j * up - ((steps : ℚ) - j) * down)

/-- The list `values` after the payoff-filling loop of `price_option`
(`for j in range(steps_left + 1)`). -/
def terminalValues (ot : OptionType) (strike spot up down : ℚ) (steps : ℕ) : List ℚ :=
  (List.range (steps + 1)).map (latticePayoff ot strike spot up down steps)

/-- One `t`-iteration of the backward-induction loop
`values[j] = probability_up * values[j+1] + probability_down * values[j]`
for `j in range(t + 1)`.  The source updates a prefix of the array in place;
`values[j+1]` is read before being overwritten, and entries past index `t`
are never read again, so one iteration is this adjacent-pair combination. -/
def backstep (pUp pDown : ℚ) : List ℚ → List ℚ
  | a :: b :: rest => (pUp * b + pDown * a) :: backstep pUp pDown (b :: rest)
  | _ => []

/-- `float(values[0])` after running the backward-induction loop for
`t in range(steps - 1, -1, -1)`, i.e. `steps` times. -/
def priceLattice (ot : OptionType) (steps : ℕ) (spot strike up down pUp pDown : ℚ) : ℚ :=
  ((backstep pUp pDown)^[steps] (terminalValues ot strike spot up down steps)).headD 0

/-- The `for u in self.underlying_state: if u.underlying_id == ...` lookup
loop: first snapshot with the matching id, `none` when absent. -/
def resolveUnderlying (unds : List Underlying) (uid : ℤ) : Option Underlying :=
  unds.find? (fun u => u.underlying_id == uid)

/-- `MarketMaker.price_option`.  `none` models the `AttributeError` raised
when the option's underlying id is absent from the snapshot list
(`underlying` stays `None`). -/
def price_option (unds : List Underlying) (opt : Opt) : Option ℚ :=
  match resolveUnderlying unds opt.underlying_id with
  | none => none
  | some u =>
    if opt.steps_until_expiry ≤ 0 then
      some (intrinsicValue opt.option_type opt.strike u.valuation)
    else
      some (priceLattice opt.option_type opt.steps_until_expiry.toNat u.valuation
        opt.strike u.up_move_step u.down_move_step
        u.up_move_probability u.down_move_probability)

/-- `bump_size = max(1e-6, 0.5 * (abs(up_step) + abs(down_step)) * 0.5)`. -/
def bumpSize (up down : ℚ) : ℚ := max (1/1000000) (1/2 * (|up| + |down|) * (1/2))

/-- `jump_scale = abs(up_step) + abs(down_step)`. -/
def jumpScale (up down : ℚ) : ℚ := |up| + |down|

/-- `option_step_scale = max(1e-6, 0.5 * jump_scale)`. -/
def optionStepScale (up down : ℚ) : ℚ := max (1/1000000) (1/2 * jumpScale up down)

/-- `moneyness = abs(spot_price - strike) / max(1, spot_price)`. -/
def moneyness (spot strike : ℚ) : ℚ := |spot - strike| / max 1 spot

/-- `delta_term = 0.15 * min(1, abs(delta_estimate))`. -/
def deltaTerm (d : ℚ) : ℚ := 15/100 * min 1 |d|

/-- `gamma_term = 0.03 * min(0, abs(gamma_estimate) * option_step_scale)`. -/
def gammaTerm (g s : ℚ) : ℚ := 3/100 * min 0 (|g| * s)

/-- `risk_spread = delta_term + gamma_term`. -/
def riskSpread (d g s : ℚ) : ℚ := deltaTerm d + gammaTerm g s

/-- `base_spread = 0.1 + price_scale * 0.006`. -/
def baseSpread (priceScale : ℚ) : ℚ := 1/10 + priceScale * (6/1000)

/-- `jump_addon = 0.10 * jump_scale`. -/
def jumpAddon (js : ℚ) : ℚ := 1/10 * js

/-- `time_factor = 1 + 1.5 / (1 + steps_left)`. -/
def timeFactor (stepsLeft : ℤ) : ℚ := 1 + (3/2) / (1 + (stepsLeft : ℚ))

/-- `spread = (base_spread + jump_addon + risk_spread) * time_factor`
(the non-calm branch of `make_market`, with `price_scale = max(1, fair_value)`). -/
def rawSpread (fair d g up down : ℚ) (stepsLeft : ℤ) : ℚ :=
  (baseSpread (max 1 fair) + jumpAddon (jumpScale up down)
    + riskSpread d g (optionStepScale up down)) * timeFactor stepsLeft

/-- `spread = max(min_spread, min(spread, max_spread))` with
`min_spread = 0.03` and `max_spread = 10.0 + 0.10 * price_scale`. -/
def clampSpread (fair s : ℚ) : ℚ := max (3/100) (min s (10 + 1/10 * max 1 fair))

/-- The inline `price_with_spot` closure of `make_market` (textually repeated
in `on_step_advance`): the same lattice as `price_option`, at a custom spot. -/
def priceWithSpot (opt : Opt) (u : Underlying) (spot : ℚ) : ℚ :=
  priceLattice opt.option_type opt.steps_until_expiry.toNat spot opt.strike
    u.up_move_step u.down_move_step u.up_move_probability u.down_move_probability

/-- `delta_estimate = (fair_value_up - fair_value_down) / (2 * bump_size)`. -/
def deltaEstimate (opt : Opt) (u : Underlying) : ℚ :=
  (priceWithSpot opt u (u.valuation + bumpSize u.up_move_step u.down_move_step)
    - priceWithSpot opt u (u.valuation - bumpSize u.up_move_step u.down_move_step))
  / (2 * bumpSize u.up_move_step u.down_move_step)

/-- `gamma_estimate = (fv_up + fv_down - 2 * fair_value) / bump_size ** 2`. -/
def gammaEstimate (opt : Opt) (u : Underlying) (fair : ℚ) : ℚ :=
  (priceWithSpot opt u (u.valuation + bumpSize u.up_move_step u.down_move_step)
    + priceWithSpot opt u (u.valuation - bumpSize u.up_move_step u.down_move_step)
    - 2 * fair)
  / bumpSize u.up_move_step u.down_move_step ^ 2

/-- `is_calm_underlying and is_far_from_expiry and is_not_ultra_atm`. -/
def isCalm (u : Underlying) (opt : Opt) : Prop :=
  jumpScale u.up_move_step u.down_move_step < 2
    ∧ 3 ≤ opt.steps_until_expiry
    ∧ 1/10 ≤ moneyness u.valuation opt.strike

instance (u : Underlying) (opt : Opt) : Decidable (isCalm u opt) := by
  unfold isCalm; infer_instance

/-- The clamped spread actually used for the quote on the non-calm path. -/
def mmSpread (fair : ℚ) (u : Underlying) (opt : Opt) : ℚ :=
  clampSpread fair
    (rawSpread fair (deltaEstimate opt u) (gammaEstimate opt u fair)
      u.up_move_step u.down_move_step opt.steps_until_expiry)

/-- `bid = max(fair_value - half_spread, 0)`, `offer = fair_value + half_spread`. -/
def mmQuote (fair half : ℚ) : ℚ × ℚ := (max (fair - half) 0, fair + half)

/-- Runtime failures of `make_market`:
* `unresolvedUnderlying`: the option's underlying id is absent from the
  snapshot list (`AttributeError` on `None`);
* `calmSpreadUnbound`: the calm branch executes
  `spread = min(spread, 0.80)` with the local `spread` not yet assigned
  (`UnboundLocalError`);
* `intrinsicNameError`: the `steps_left <= 0` branch assigns `intrisic`
  but evaluates `intrinsic` (`NameError`). -/
inductive MMError
  | unresolvedUnderlying
  | calmSpreadUnbound
  | intrinsicNameError
deriving DecidableEq

/-- `MarketMaker.make_market`, branch for branch.  The source computes
`fair_value`, the greeks and the spread scales first, then hits the calm
classification (crash), then clamps the spread, then hits the expiry branch
(crash), and otherwise returns the quote around `fair_value`. -/
def make_market (unds : List Underlying) (opt : Opt) : Except MMError (ℚ × ℚ) :=
  match price_option unds opt with
  | none => .error .unresolvedUnderlying
  | some fair =>
    match resolveUnderlying unds opt.underlying_id with
    | none => .error .unresolvedUnderlying
    | some u =>
      if isCalm u opt then
        .error .calmSpreadUnbound
      else if opt.steps_until_expiry ≤ 0 then
        .error .intrinsicNameError
      else
        .ok (mmQuote fair (mmSpread fair u opt / 2))

/-- Backward-induction recurrence in the words of the specification: the
expiry layer is the payoff, and one time step back combines each node with
its up-neighbour, `value[j] = pUp * value[j+1] + pDown * value[j]`.  This
definition follows the spec text; the refinement theorem for C5 compares
`price_option` (embedded from the source) against it. -/
def specValue (pUp pDown : ℚ) (payoff : ℕ → ℚ) : ℕ → ℕ → ℚ
  | 0, j => payoff j
  | k + 1, j =>
      pUp * specValue pUp pDown payoff k (j + 1) + pDown * specValue pUp pDown payoff k j

/-- First-match lookup with a default, modelling Python `dict.get(k, d)`
(and plain indexing when the key is known to be present). -/
def lookupD {α : Type} (m : List (ℤ × α)) (k : ℤ) (d : α) : α :=
  match m with
  | [] => d
  | (k2, v) :: t => if k2 = k then v else lookupD t k d

/-- `m[k] = m.get(k, 0) + c` on a Python dict: update the existing entry in
place, else append a new entry (Python dicts preserve insertion order). -/
def updAdd (m : List (ℤ × ℚ)) (k : ℤ) (c : ℚ) : List (ℤ × ℚ) :=
  match m with
  | [] => [(k, c)]
  | (k2, v) :: t => if k2 = k then (k2, v + c) :: t else (k2, v) :: updAdd t k c

/-- The `Position` ledger of the framework. -/
structure Position where
  option_quantity_by_option_id : List (ℤ × ℤ)
  underlying_quantity_by_underlying_id : List (ℤ × ℚ)
deriving DecidableEq

/-- Python 3 `round` to an integer: round half to even. -/
def roundHalfEven (q : ℚ) : ℤ :=
  if q - ⌊q⌋ < 1/2 then ⌊q⌋
  else if 1/2 < q - ⌊q⌋ then ⌊q⌋ + 1
  else if ⌊q⌋ % 2 = 0 then ⌊q⌋ else ⌊q⌋ + 1

/-- Python `round(q, 2)`. -/
def roundTo2 (q : ℚ) : ℚ := (roundHalfEven (q * 100) : ℚ) / 100

/-- `Position.add_underlying_quantity`: rounds the increment to two decimal
places, then adds it into the (default 0) entry. -/
def add_underlying_quantity (pos : Position) (uid : ℤ) (q : ℚ) : Position :=
  Position.mk pos.option_quantity_by_option_id
    (updAdd pos.underlying_quantity_by_underlying_id uid (roundTo2 q))

/-- `safe_band = 0.1`. -/
def safeBand : ℚ := 1/10

/-- `quantity_to_trade = int(round(excess_exposure * (-1.00)))` where
`excess_exposure = delta_total - target_edge` and
`target_edge = safe_band if delta_total > 0 else -safe_band`. -/
def tradeQtyFor (x : ℚ) : ℤ :=
  roundHalfEven ((x - (if 0 < x then safeBand else -safeBand)) * (-1))

/-- The option-delta aggregation loop of `on_step_advance`: for every active
option with nonzero held quantity, add `quantity * delta_estimate` into the
net-delta dict keyed by the option's underlying id.  `none` models the
`KeyError` from `underlyings_by_id[option.underlying_id]`. -/
def netDeltaGo (unds : List Underlying) (optQ : List (ℤ × ℤ)) :
    List Opt → List (ℤ × ℚ) → Option (List (ℤ × ℚ))
  | [], net => some net
  | o :: rest, net =>
    if lookupD optQ o.option_id 0 = 0 then
      netDeltaGo unds optQ rest net
    else
      match resolveUnderlying unds o.underlying_id with
      | none => none
      | some u =>
        netDeltaGo unds optQ rest
          (updAdd net o.underlying_id (((lookupD optQ o.option_id 0 : ℤ) : ℚ) * deltaEstimate o u))

/-- The net-delta dict at the end of the aggregation phase of
`on_step_advance`: seeded with the directly held underlying quantities
(delta 1 per unit), then the option contributions are added. -/
def computeNetDelta (unds : List Underlying) (opts : List Opt) (pos : Position) :
    Option (List (ℤ × ℚ)) :=
  netDeltaGo unds pos.option_quantity_by_option_id opts
    pos.underlying_quantity_by_underlying_id

/-- The hedging loop of `on_step_advance` over the net-delta dict entries:
resolve the underlying (KeyError → `none`), skip when within the band or when
the rounded quantity is zero, otherwise trade.  Both `buy_underlying` and
`sell_underlying` invoke the callback with the signed quantity
`quantity_to_trade` and add that quantity into the position, so each executed
trade is recorded as `(underlying_id, quantity_to_trade)`. -/
def hedgeLoop (unds : List Underlying) :
    List (ℤ × ℚ) → Position → Option (List (ℤ × ℤ) × Position)
  | [], pos => some ([], pos)
  | (uid, x) :: rest, pos =>
    match resolveUnderlying unds uid with
    | none => none
    | some _ =>
      if |x| ≤ safeBand then hedgeLoop unds rest pos
      else if tradeQtyFor x = 0 then hedgeLoop unds rest pos
      else
        match hedgeLoop unds rest (add_underlying_quantity pos uid (tradeQtyFor x : ℚ)) with
        | none => none
        | some (ts, p) => some ((uid, tradeQtyFor x) :: ts, p)

/-- `MarketMaker.on_step_advance` after the snapshot swap: one full hedger
pass over the supplied snapshots and position, returning the list of trade
instructions issued and the resulting position. -/
def on_step_advance (unds : List Underlying) (opts : List Opt) (pos : Position) :
    Option (List (ℤ × ℤ) × Position) :=
  match computeNetDelta unds opts pos with
  | none => none
  | some net => hedgeLoop unds net pos

/-- Net underlying quantity traded for id `k` during one hedging loop
(specification device used by the idempotence proof). -/
def hedgeAdj : List (ℤ × ℚ) → ℤ → ℚ
  | [], _ => 0
  | (uid, x) :: rest, k =>
    (if uid = k ∧ ¬ |x| ≤ safeBand then (tradeQtyFor x : ℚ) else 0) + hedgeAdj rest k

/-- Total option-delta contribution to underlying `k` (specification device
used by the aggregation and idempotence proofs). -/
def optContrib (unds : List Underlying) (optQ : List (ℤ × ℤ)) (opts : List Opt) (k : ℤ) : ℚ :=
  opts.foldr (fun o acc =>
    (if lookupD optQ o.option_id 0 = 0 then 0
     else match resolveUnderlying unds o.underlying_id with
       | none => 0
       | some u =>
         if o.underlying_id = k then ((lookupD optQ o.option_id 0 : ℤ) : ℚ) * deltaEstimate o u
         else 0) + acc) 0

/-- Concrete underlying of the spec's worked scenario: valuation 100,
`up_step = down_step = 1`, `p_up = p_down = 1/2`, no noise. -/
def und1 : Underlying :=
  { name := "U1", underlying_id := 1, valuation := 100,
    down_move_probability := 1/2, down_move_step := 1, noise_std_dev := 0,
    up_move_probability := 1/2, up_move_step := 1 }

/-- Call on `und1`, strike 100, two steps until expiry. -/
def optA : Opt :=
  { option_id := 1, option_type := .CALL, steps_until_expiry := 2,
    strike := 100, underlying_id := 1, underlying_name := "U1" }

/-- Underlying at valuation 105 for the expiry scenarios. -/
def und2 : Underlying :=
  { name := "U2", underlying_id := 2, valuation := 105,
    down_move_probability := 1/2, down_move_step := 1, noise_std_dev := 0,
    up_move_probability := 1/2, up_move_step := 1 }

/-- Expired call on `und2`, strike 100 (intrinsic value 5). -/
def optExpired : Opt :=
  { option_id := 2, option_type := .CALL, steps_until_expiry := 0,
    strike := 100, underlying_id := 2, underlying_name := "U2" }

/-- A calm underlying: `jump_scale = 1 < 2`. -/
def undCalm : Underlying :=
  { name := "U9", underlying_id := 9, valuation := 100,
    down_move_probability := 1/2, down_move_step := 1/2, noise_std_dev := 0,
    up_move_probability := 1/2, up_move_step := 1/2 }

/-- Option hitting the calm classification: 3 steps left and
`moneyness = 20/100 ≥ 0.10` against `undCalm`. -/
def optCalm : Opt :=
  { option_id := 9, option_type := .CALL, steps_until_expiry := 3,
    strike := 120, underlying_id := 9, underlying_name := "U9" }

/-- Position holding 5 units of underlying 1 directly (hedger scenario). -/
def posHedge : Position :=
  { option_quantity_by_option_id := [],
    underlying_quantity_by_underlying_id := [(1, 5)] }

/-- The position after the first hedger pass on `posHedge`: the pass sells 5
units, leaving net delta 0. -/
def posHedged : Position :=
  { option_quantity_by_option_id := [],
    underlying_quantity_by_underlying_id := [(1, 0)] }

/-- Position holding 2 units of option id 1 (delta-aggregation scenario). -/
def posOpt2 : Position :=
  { option_quantity_by_option_id := [(1, 2)],
    underlying_quantity_by_underlying_id := [] }

/-! ### Basic lemmas about the quote-engine arithmetic -/

theorem intrinsicValue_nonneg (ot : OptionType) (strike spot : ℚ) :
    0 ≤ intrinsicValue ot strike spot := by
  cases ot <;> simp [intrinsicValue]

theorem optionStepScale_nonneg (up down : ℚ) : 0 ≤ optionStepScale up down :=
  le_trans (by norm_num) (le_max_left _ _)

/-- The inner argument of the gamma term is nonnegative, so the
`min(0, ...)` always evaluates to `0`. -/
theorem gammaTerm_eq_zero (g up down : ℚ) :
    gammaTerm g (optionStepScale up down) = 0 := by
  unfold gammaTerm
  rw [min_eq_left (mul_nonneg (abs_nonneg g) (optionStepScale_nonneg up down))]
  ring

theorem deltaTerm_nonneg (d : ℚ) : 0 ≤ deltaTerm d :=
  mul_nonneg (by norm_num) (le_min (by norm_num) (abs_nonneg d))

/-! ### Nonnegativity of the lattice price -/

theorem backstep_nonneg (pUp pDown : ℚ) (hUp : 0 ≤ pUp) (hDown : 0 ≤ pDown) :
    ∀ l : List ℚ, (∀ x ∈ l, 0 ≤ x) → ∀ x ∈ backstep pUp pDown l, 0 ≤ x := by
  intro l
  induction l with
  | nil => intro _ x hx; simp [backstep] at hx
  | cons a t ih =>
    intro hl x hx
    cases t with
    | nil => simp [backstep] at hx
    | cons b r =>
      rw [backstep] at hx
      rcases List.mem_cons.mp hx with h | h
      · subst h
        have ha : 0 ≤ a := hl a (by simp)
        have hb : 0 ≤ b := hl b (by simp)
        positivity
      · exact ih (fun y hy => hl y (List.mem_cons_of_mem a hy)) x h

theorem iterate_backstep_nonneg (pUp pDown : ℚ) (hUp : 0 ≤ pUp) (hDown : 0 ≤ pDown)
    (l : List ℚ) (hl : ∀ x ∈ l, 0 ≤ x) (n : ℕ) :
    ∀ x ∈ (backstep pUp pDown)^[n] l, 0 ≤ x := by
  induction n with
  | zero => simpa using hl
  | succ n ih =>
    rw [Function.iterate_succ_apply']
    exact backstep_nonneg pUp pDown hUp hDown _ ih

theorem terminalValues_nonneg (ot : OptionType) (strike spot up down : ℚ) (steps : ℕ) :
    ∀ x ∈ terminalValues ot strike spot up down steps, 0 ≤ x := by
  intro x hx
  unfold terminalValues at hx
  rcases List.mem_map.mp hx with ⟨j, _, hj⟩
  rw [← hj]
  exact intrinsicValue_nonneg _ _ _

theorem priceLattice_nonneg (ot : OptionType) (steps : ℕ)
    (spot strike up down pUp pDown : ℚ) (hUp : 0 ≤ pUp) (hDown : 0 ≤ pDown) :
    0 ≤ priceLattice ot steps spot strike up down pUp pDown := by
  unfold priceLattice
  have h := iterate_backstep_nonneg pUp pDown hUp hDown _
    (terminalValues_nonneg ot strike spot up down steps) steps
  cases hc : (backstep pUp pDown)^[steps] (terminalValues ot strike spot up down steps) with
  | nil => simp
  | cons a t =>
    rw [hc] at h
    simpa using h a (by simp)

/-! ### Validity of underlyings -/

theorem underlyingOk_iff (u : Underlying) :
    underlyingOk u ↔
      0 < u.down_move_step ∧ 0 < u.up_move_step ∧
      0 < u.down_move_probability ∧ 0 < u.up_move_probability ∧
      u.down_move_probability + u.up_move_probability = 1 ∧
      u.down_move_probability * u.down_move_step
        - u.up_move_probability * u.up_move_step ≤ 1/100000 := by
  unfold underlyingOk underlyingPostInit
  constructor
  · intro h
    split_ifs at h with h1 h2 h3 h4
    push_neg at h1 h2
    exact ⟨h1.1, h1.2, h2.1, h2.2, not_ne_iff.mp h3, not_lt.mp h4⟩
  · rintro ⟨hd, hu2, hdp, hup, hsum, hdrift⟩
    rw [if_neg (by push_neg; exact ⟨hd, hu2⟩), if_neg (by push_neg; exact ⟨hdp, hup⟩),
      if_neg (not_ne_iff.mpr hsum), if_neg (not_lt.mpr hdrift)]

theorem underlyingOk_probs (u : Underlying) (h : underlyingOk u) :
    0 < u.up_move_probability ∧ 0 < u.down_move_probability := by
  rw [underlyingOk_iff] at h
  exact ⟨h.2.2.2.1, h.2.2.1⟩

/-- Any resolvable underlying with calm classification makes `make_market`
hit the uninitialised `spread` read. -/
theorem make_market_calm_aux (unds : List Underlying) (opt : Opt) (u : Underlying)
    (hu : resolveUnderlying unds opt.underlying_id = some u) (hc : isCalm u opt) :
    make_market unds opt = Except.error MMError.calmSpreadUnbound := by
  unfold make_market price_option
  rw [hu]
  split_ifs with hs <;> simp only [if_pos hc]

/-- Any resolvable expired (or past-expiry) non-calm option makes
`make_market` hit the `intrinsic` name error. -/
theorem make_market_expired_aux (unds : List Underlying) (opt : Opt) (u : Underlying)
    (hu : resolveUnderlying unds opt.underlying_id = some u) (hc : ¬ isCalm u opt)
    (hs : opt.steps_until_expiry ≤ 0) :
    make_market unds opt = Except.error MMError.intrinsicNameError := by
  unfold make_market price_option
  rw [hu]
  simp only [if_pos hs, if_neg hc]

theorem price_option_nonneg (unds : List Underlying) (opt : Opt) (u : Underlying) (fair : ℚ)
    (hu : resolveUnderlying unds opt.underlying_id = some u)
    (hUp : 0 ≤ u.up_move_probability) (hDown : 0 ≤ u.down_move_probability)
    (hp : price_option unds opt = some fair) : 0 ≤ fair := by
  unfold price_option at hp
  rw [hu] at hp
  split_ifs at hp with hs
  · rw [Option.some_inj] at hp
    rw [← hp]
    exact intrinsicValue_nonneg _ _ _
  · rw [Option.some_inj] at hp
    rw [← hp]
    exact priceLattice_nonneg _ _ _ _ _ _ _ _ hUp hDown

/-! ### Quote-engine structure and bounds -/

/-- Inversion: a successful quote comes from a resolvable underlying, a
priced fair value, a non-calm classification and a strictly positive number
of steps, and has the `mmQuote` shape. -/
theorem make_market_ok_inv (unds : List Underlying) (opt : Opt) (b o : ℚ)
    (h : make_market unds opt = Except.ok (b, o)) :
    ∃ u fair, resolveUnderlying unds opt.underlying_id = some u ∧
      price_option unds opt = some fair ∧ ¬ isCalm u opt ∧
      0 < opt.steps_until_expiry ∧
      b = max (fair - mmSpread fair u opt / 2) 0 ∧
      o = fair + mmSpread fair u opt / 2 := by
  unfold make_market at h
  cases hp : price_option unds opt with
  | none => rw [hp] at h; exact absurd h (by simp)
  | some fair =>
    rw [hp] at h
    cases hu : resolveUnderlying unds opt.underlying_id with
    | none => rw [hu] at h; exact absurd h (by simp)
    | some u =>
      rw [hu] at h
      by_cases hc : isCalm u opt
      · simp only [if_pos hc] at h
        exact absurd h (by simp)
      · by_cases hs : opt.steps_until_expiry ≤ 0
        · simp only [if_neg hc, if_pos hs] at h
          exact absurd h (by simp)
        · simp only [if_neg hc, if_neg hs] at h
          injection h with h2
          refine ⟨u, fair, rfl, rfl, hc, lt_of_not_le hs, ?_, ?_⟩
          · exact (congrArg Prod.fst h2).symm
          · exact (congrArg Prod.snd h2).symm

theorem rawSpread_ge (fair d g up down : ℚ) (stepsLeft : ℤ) (h1 : 1 ≤ stepsLeft) :
    106/1000 ≤ rawSpread fair d g up down stepsLeft := by
  unfold rawSpread baseSpread jumpAddon
  have hps : (1:ℚ) ≤ max 1 fair := le_max_left 1 fair
  have hjs : 0 ≤ jumpScale up down := add_nonneg (abs_nonneg up) (abs_nonneg down)
  have hrs : 0 ≤ riskSpread d g (optionStepScale up down) := by
    unfold riskSpread
    rw [gammaTerm_eq_zero]
    simpa using deltaTerm_nonneg d
  have htf : 1 ≤ timeFactor stepsLeft := by
    unfold timeFactor
    have hsq : (1:ℚ) ≤ (stepsLeft : ℚ) := by exact_mod_cast h1
    have hd : 0 ≤ (3/2 : ℚ) / (1 + (stepsLeft : ℚ)) :=
      div_nonneg (by norm_num) (by linarith)
    linarith
  have hA : (106/1000 : ℚ) ≤
      1/10 + max 1 fair * (6/1000) + 1/10 * jumpScale up down
        + riskSpread d g (optionStepScale up down) := by
    nlinarith
  have hA0 : (0:ℚ) ≤
      1/10 + max 1 fair * (6/1000) + 1/10 * jumpScale up down
        + riskSpread d g (optionStepScale up down) := by linarith
  have hmul := mul_le_mul_of_nonneg_left htf hA0
  linarith

theorem clampSpread_le (fair s : ℚ) : clampSpread fair s ≤ 10 + 1/10 * max 1 fair := by
  unfold clampSpread
  have h2 : (3/100:ℚ) ≤ 10 + 1/10 * max 1 fair := by
    nlinarith [le_max_left (1:ℚ) fair]
  exact max_le h2 (min_le_right _ _)

theorem clampSpread_ge_of (fair s : ℚ) (hs : 106/1000 ≤ s) :
    106/1000 ≤ clampSpread fair s := by
  unfold clampSpread
  have hM : (106/1000:ℚ) ≤ 10 + 1/10 * max 1 fair := by
    nlinarith [le_max_left (1:ℚ) fair]
  exact le_trans (le_min hs hM) (le_max_right _ _)

theorem mmSpread_bounds (fair : ℚ) (u : Underlying) (opt : Opt)
    (hsteps : 1 ≤ opt.steps_until_expiry) :
    106/1000 ≤ mmSpread fair u opt ∧ mmSpread fair u opt ≤ 10 + 1/10 * max 1 fair := by
  unfold mmSpread
  exact ⟨clampSpread_ge_of _ _ (rawSpread_ge _ _ _ _ _ _ hsteps), clampSpread_le _ _⟩

theorem und1_ok : underlyingOk und1 := by
  rw [underlyingOk_iff]
  norm_num [und1]

/-- Concrete quote for the spec's worked scenario (`und1`, 2-step call at
the money): fair value 1/2, clamped spread 1143/2000, quote
(857/4000, 3143/4000) = (0.21425, 0.78575). -/
theorem make_market_eval1 :
    make_market [und1] optA = Except.ok (857/4000, 3143/4000) := by
  norm_num [make_market, price_option, resolveUnderlying, und1, optA, priceLattice,
    terminalValues, latticePayoff, intrinsicValue, backstep, List.range_succ,
    Function.iterate_succ_apply, show Int.toNat 2 = 2 from rfl, isCalm, jumpScale,
    moneyness, mmSpread, clampSpread, rawSpread, baseSpread, jumpAddon, riskSpread,
    deltaTerm, gammaTerm, optionStepScale, timeFactor, bumpSize, deltaEstimate,
    gammaEstimate, priceWithSpot, mmQuote, max_def, min_def, abs_of_nonneg,
    abs_of_nonpos, abs_one, abs_zero]

/-- The spec's worked scenario: fair value of the 2-step at-the-money call
on `und1` is exactly 1/2. -/
theorem price_option_eval1 : price_option [und1] optA = some (1/2) := by
  norm_num [price_option, resolveUnderlying, und1, optA, priceLattice, terminalValues,
    latticePayoff, intrinsicValue, List.range_succ, Function.iterate_succ_apply,
    backstep, show Int.toNat 2 = 2 from rfl, max_def, min_def]

/-! ### Rounding (Python half-to-even) -/

theorem roundHalfEven_intCast (n : ℤ) : roundHalfEven (n : ℚ) = n := by
  norm_num [roundHalfEven]

theorem roundHalfEven_bounds (q : ℚ) :
    q - 1/2 ≤ (roundHalfEven q : ℚ) ∧ (roundHalfEven q : ℚ) ≤ q + 1/2 := by
  have h1 : (⌊q⌋ : ℚ) ≤ q := Int.floor_le q
  have h2 : q < ⌊q⌋ + 1 := Int.lt_floor_add_one q
  unfold roundHalfEven
  split_ifs with ha hb hc <;> constructor <;> push_cast <;> linarith

theorem roundHalfEven_eq_zero (q : ℚ) (h1 : -(1/2) ≤ q) (h2 : q ≤ 1/2) :
    roundHalfEven q = 0 := by
  rcases le_or_lt 0 q with hq | hq
  · have hf : ⌊q⌋ = 0 := by
      rw [Int.floor_eq_zero_iff]
      exact Set.mem_Ico.mpr ⟨hq, by linarith⟩
    unfold roundHalfEven
    rw [hf]
    split_ifs with ha hb hc
    · rfl
    · exfalso
      push_cast at hb
      linarith
    · rfl
    · exact absurd (by decide : (0:ℤ) % 2 = 0) hc
  · have hf : ⌊q⌋ = -1 := by
      rw [Int.floor_eq_iff]
      constructor <;> push_cast <;> linarith
    unfold roundHalfEven
    rw [hf]
    split_ifs with ha hb hc
    · exfalso
      push_cast at ha
      linarith
    · norm_num
    · exact absurd hc (by decide)
    · norm_num

theorem roundTo2_intCast (n : ℤ) : roundTo2 (n : ℚ) = n := by
  unfold roundTo2
  rw [show ((n : ℚ) * 100) = ((n * 100 : ℤ) : ℚ) by push_cast; ring,
    roundHalfEven_intCast]
  push_cast
  field_simp

/-- Per-underlying idempotence: after trading `tradeQtyFor x` against a net
delta `x` outside the band, the new net delta is either inside the band or
rounds to a zero trade. -/
theorem tradeQty_step_idem (x : ℚ) :
    |x + (tradeQtyFor x : ℚ)| ≤ safeBand ∨
      tradeQtyFor (x + (tradeQtyFor x : ℚ)) = 0 := by
  by_cases hy : |x + (tradeQtyFor x : ℚ)| ≤ safeBand
  · exact Or.inl hy
  right
  set e : ℚ := if 0 < x then safeBand else -safeBand with he
  have hb : (x - e) * (-1) - 1/2 ≤ ((tradeQtyFor x : ℤ) : ℚ) ∧
      ((tradeQtyFor x : ℤ) : ℚ) ≤ (x - e) * (-1) + 1/2 :=
    roundHalfEven_bounds ((x - e) * (-1))
  have hedge : e = 1/10 ∨ e = -(1/10) := by
    rw [he]
    unfold safeBand
    split_ifs <;> simp
  set y : ℚ := x + (tradeQtyFor x : ℚ) with hy_eq
  have hyb : e - 1/2 ≤ y ∧ y ≤ e + 1/2 := by
    rw [hy_eq]
    constructor <;> linarith [hb.1, hb.2]
  have hy2 : 1/10 < y ∨ 1/10 < -y := by
    rw [← lt_abs]
    unfold safeBand at hy
    linarith [not_le.mp hy]
  rw [show tradeQtyFor y =
    roundHalfEven ((y - (if 0 < y then safeBand else -safeBand)) * (-1)) from rfl]
  by_cases hy0 : 0 < y
  · rw [if_pos hy0]
    unfold safeBand
    apply roundHalfEven_eq_zero <;> rcases hedge with h | h <;>
      rcases hy2 with h2 | h2 <;> linarith [hyb.1, hyb.2]
  · rw [if_neg hy0]
    unfold safeBand
    apply roundHalfEven_eq_zero <;> rcases hedge with h | h <;>
      rcases hy2 with h2 | h2 <;> linarith [hyb.1, hyb.2]

/-! ### Association-list (Python dict) lemmas -/

theorem lookupD_updAdd (m : List (ℤ × ℚ)) (k x : ℤ) (c : ℚ) :
    lookupD (updAdd m k c) x 0 = lookupD m x 0 + (if k = x then c else 0) := by
  induction m with
  | nil =>
    simp only [updAdd, lookupD]
    split_ifs with h <;> ring
  | cons p t ih =>
    obtain ⟨k2, v⟩ := p
    simp only [updAdd]
    by_cases h : k2 = k
    · rw [if_pos h]
      simp only [lookupD]
      by_cases h2 : k2 = x
      · rw [if_pos h2, if_pos h2, if_pos (by omega : k = x)]
      · rw [if_neg h2, if_neg h2, if_neg (by omega : ¬ k = x)]
        ring
    · rw [if_neg h]
      simp only [lookupD]
      by_cases h2 : k2 = x
      · rw [if_pos h2, if_pos h2, if_neg (by omega : ¬ k = x)]
        ring
      · rw [if_neg h2, if_neg h2, ih]

theorem mem_keys_updAdd (m : List (ℤ × ℚ)) (k : ℤ) (c : ℚ) (x : ℤ) :
    x ∈ (updAdd m k c).map Prod.fst ↔ x ∈ m.map Prod.fst ∨ x = k := by
  induction m with
  | nil => simp [updAdd]
  | cons p t ih =>
    obtain ⟨k2, v⟩ := p
    simp only [updAdd]
    by_cases h : k2 = k
    · rw [if_pos h]
      simp only [List.map_cons, List.mem_cons]
      subst h
      tauto
    · rw [if_neg h]
      simp only [List.map_cons, List.mem_cons, ih]
      tauto

theorem nodup_keys_updAdd (m : List (ℤ × ℚ)) (k : ℤ) (c : ℚ)
    (h : (m.map Prod.fst).Nodup) : ((updAdd m k c).map Prod.fst).Nodup := by
  induction m with
  | nil => simp [updAdd]
  | cons p t ih =>
    obtain ⟨k2, v⟩ := p
    simp only [List.map_cons, List.nodup_cons] at h
    simp only [updAdd]
    by_cases hk : k2 = k
    · rw [if_pos hk]
      simp only [List.map_cons, List.nodup_cons]
      exact h
    · rw [if_neg hk]
      simp only [List.map_cons, List.nodup_cons]
      refine ⟨?_, ih h.2⟩
      rw [mem_keys_updAdd]
      rintro (h1 | h1)
      · exact h.1 h1
      · exact hk h1

theorem lookupD_of_mem_nodup (m : List (ℤ × ℚ)) (k : ℤ) (v : ℚ)
    (hn : (m.map Prod.fst).Nodup) (hm : (k, v) ∈ m) : lookupD m k 0 = v := by
  induction m with
  | nil => simp at hm
  | cons p t ih =>
    obtain ⟨k2, w⟩ := p
    simp only [List.map_cons, List.nodup_cons] at hn
    rcases List.mem_cons.mp hm with h | h
    · simp only [Prod.mk.injEq] at h
      obtain ⟨h1, h2⟩ := h
      subst h1
      subst h2
      simp [lookupD]
    · have hne : k2 ≠ k := by
        intro hc
        apply hn.1
        rw [hc]
        exact List.mem_map_of_mem Prod.fst h
      simp only [lookupD, if_neg hne]
      exact ih hn.2 h

/-! ### The delta-aggregation loop -/

theorem optContrib_cons (unds : List Underlying) (optQ : List (ℤ × ℤ))
    (o : Opt) (rest : List Opt) (k : ℤ) :
    optContrib unds optQ (o :: rest) k =
      (if lookupD optQ o.option_id 0 = 0 then 0
       else match resolveUnderlying unds o.underlying_id with
         | none => 0
         | some u =>
           if o.underlying_id = k then
             ((lookupD optQ o.option_id 0 : ℤ) : ℚ) * deltaEstimate o u
           else 0)
      + optContrib unds optQ rest k := rfl

theorem netDeltaGo_lookup (unds : List Underlying) (optQ : List (ℤ × ℤ)) :
    ∀ (opts : List Opt) (net m : List (ℤ × ℚ)),
      netDeltaGo unds optQ opts net = some m →
      ∀ k, lookupD m k 0 = lookupD net k 0 + optContrib unds optQ opts k := by
  intro opts
  induction opts with
  | nil =>
    intro net m h k
    simp only [netDeltaGo, Option.some_inj] at h
    subst h
    simp [optContrib]
  | cons o rest ih =>
    intro net m h k
    simp only [netDeltaGo] at h
    by_cases hq : lookupD optQ o.option_id 0 = 0
    · rw [if_pos hq] at h
      rw [ih net m h k, optContrib_cons, if_pos hq]
      ring
    · rw [if_neg hq] at h
      cases hres : resolveUnderlying unds o.underlying_id with
      | none =>
        rw [hres] at h
        exact absurd h (by simp)
      | some u =>
        rw [hres] at h
        rw [ih _ m h k, lookupD_updAdd, optContrib_cons, if_neg hq]
        simp only [hres]
        by_cases hk : o.underlying_id = k
        · rw [if_pos hk]
          ring
        · rw [if_neg hk]
          ring

theorem netDeltaGo_keys (unds : List Underlying) (optQ : List (ℤ × ℤ)) :
    ∀ (opts : List Opt) (net m : List (ℤ × ℚ)),
      netDeltaGo unds optQ opts net = some m →
      ∀ x, x ∈ m.map Prod.fst ↔ x ∈ net.map Prod.fst ∨
        (∃ o ∈ opts, lookupD optQ o.option_id 0 ≠ 0 ∧ o.underlying_id = x) := by
  intro opts
  induction opts with
  | nil =>
    intro net m h x
    simp only [netDeltaGo, Option.some_inj] at h
    subst h
    simp
  | cons o rest ih =>
    intro net m h x
    simp only [netDeltaGo] at h
    by_cases hq : lookupD optQ o.option_id 0 = 0
    · rw [if_pos hq] at h
      rw [ih net m h x]
      simp only [List.mem_cons]
      constructor
      · rintro (h1 | ⟨o2, h2, h3, h4⟩)
        · exact Or.inl h1
        · exact Or.inr ⟨o2, Or.inr h2, h3, h4⟩
      · rintro (h1 | ⟨o2, h2, h3, h4⟩)
        · exact Or.inl h1
        · rcases h2 with rfl | h2
          · exact absurd hq h3
          · exact Or.inr ⟨o2, h2, h3, h4⟩
    · rw [if_neg hq] at h
      cases hres : resolveUnderlying unds o.underlying_id with
      | none =>
        rw [hres] at h
        exact absurd h (by simp)
      | some u =>
        rw [hres] at h
        rw [ih _ m h x, mem_keys_updAdd]
        simp only [List.mem_cons]
        constructor
        · rintro ((h1 | h1) | ⟨o2, h2, h3, h4⟩)
          · exact Or.inl h1
          · exact Or.inr ⟨o, Or.inl rfl, hq, h1.symm⟩
          · exact Or.inr ⟨o2, Or.inr h2, h3, h4⟩
        · rintro (h1 | ⟨o2, h2, h3, h4⟩)
          · exact Or.inl (Or.inl h1)
          · rcases h2 with rfl | h2
            · exact Or.inl (Or.inr h4.symm)
            · exact Or.inr ⟨o2, h2, h3, h4⟩

theorem netDeltaGo_nodup (unds : List Underlying) (optQ : List (ℤ × ℤ)) :
    ∀ (opts : List Opt) (net m : List (ℤ × ℚ)),
      netDeltaGo unds optQ opts net = some m →
      (net.map Prod.fst).Nodup → (m.map Prod.fst).Nodup := by
  intro opts
  induction opts with
  | nil =>
    intro net m h hn
    simp only [netDeltaGo, Option.some_inj] at h
    subst h
    exact hn
  | cons o rest ih =>
    intro net m h hn
    simp only [netDeltaGo] at h
    by_cases hq : lookupD optQ o.option_id 0 = 0
    · rw [if_pos hq] at h
      exact ih net m h hn
    · rw [if_neg hq] at h
      cases hres : resolveUnderlying unds o.underlying_id with
      | none =>
        rw [hres] at h
        exact absurd h (by simp)
      | some u =>
        rw [hres] at h
        exact ih _ m h (nodup_keys_updAdd _ _ _ hn)

theorem netDeltaGo_isSome (unds : List Underlying) (optQ : List (ℤ × ℤ)) :
    ∀ (opts : List Opt) (net m net2 : List (ℤ × ℚ)),
      netDeltaGo unds optQ opts net = some m →
      ∃ m2, netDeltaGo unds optQ opts net2 = some m2 := by
  intro opts
  induction opts with
  | nil =>
    intro net m net2 _
    exact ⟨net2, rfl⟩
  | cons o rest ih =>
    intro net m net2 h
    simp only [netDeltaGo] at h ⊢
    by_cases hq : lookupD optQ o.option_id 0 = 0
    · rw [if_pos hq] at h
      simp only [if_pos hq]
      exact ih net m net2 h
    · rw [if_neg hq] at h
      simp only [if_neg hq]
      cases hres : resolveUnderlying unds o.underlying_id with
      | none =>
        rw [hres] at h
        exact absurd h (by simp)
      | some u =>
        rw [hres] at h
        simp only [hres]
        exact ih _ m _ h

/-! ### The hedging loop -/

theorem hedgeAdj_not_mem (net : List (ℤ × ℚ)) (k : ℤ) (h : k ∉ net.map Prod.fst) :
    hedgeAdj net k = 0 := by
  induction net with
  | nil => rfl
  | cons e rest ih =>
    obtain ⟨uid, x⟩ := e
    simp only [List.map_cons, List.mem_cons] at h
    push_neg at h
    simp only [hedgeAdj]
    rw [if_neg (fun hc => h.1 hc.1.symm), ih h.2]
    ring

theorem hedgeAdj_of_mem (net : List (ℤ × ℚ)) (uid : ℤ) (x : ℚ)
    (hn : (net.map Prod.fst).Nodup) (hm : (uid, x) ∈ net) :
    hedgeAdj net uid =
      if ¬ |x| ≤ safeBand then ((tradeQtyFor x : ℤ) : ℚ) else 0 := by
  induction net with
  | nil => simp at hm
  | cons e rest ih =>
    obtain ⟨k2, v⟩ := e
    simp only [List.map_cons, List.nodup_cons] at hn
    rcases List.mem_cons.mp hm with h | h
    · simp only [Prod.mk.injEq] at h
      obtain ⟨h1, h2⟩ := h
      subst h1
      subst h2
      simp only [hedgeAdj, eq_self_iff_true, true_and]
      rw [hedgeAdj_not_mem rest _ hn.1]
      ring
    · have hne : k2 ≠ uid := by
        intro hc
        apply hn.1
        rw [hc]
        exact List.mem_map_of_mem Prod.fst h
      simp only [hedgeAdj]
      rw [if_neg (fun hc => hne hc.1), ih hn.2 h]
      ring

theorem hedgeLoop_optQty (unds : List Underlying) :
    ∀ (net : List (ℤ × ℚ)) (pos : Position) (ts : List (ℤ × ℤ)) (p : Position),
      hedgeLoop unds net pos = some (ts, p) →
      p.option_quantity_by_option_id = pos.option_quantity_by_option_id := by
  intro net
  induction net with
  | nil =>
    intro pos ts p h
    simp only [hedgeLoop, Option.some_inj, Prod.mk.injEq] at h
    rw [← h.2]
  | cons e rest ih =>
    obtain ⟨uid, x⟩ := e
    intro pos ts p h
    simp only [hedgeLoop] at h
    cases hres : resolveUnderlying unds uid with
    | none =>
      rw [hres] at h
      exact absurd h (by simp)
    | some u =>
      rw [hres] at h
      by_cases hband : |x| ≤ safeBand
      · rw [if_pos hband] at h
        exact ih pos ts p h
      · rw [if_neg hband] at h
        by_cases hq0 : tradeQtyFor x = 0
        · rw [if_pos hq0] at h
          exact ih pos ts p h
        · rw [if_neg hq0] at h
          cases hrec : hedgeLoop unds rest
              (add_underlying_quantity pos uid (tradeQtyFor x : ℚ)) with
          | none =>
            rw [hrec] at h
            exact absurd h (by simp)
          | some tp =>
            obtain ⟨ts2, p2⟩ := tp
            rw [hrec] at h
            simp only [Option.some_inj, Prod.mk.injEq] at h
            rw [← h.2]
            exact ih (add_underlying_quantity pos uid (tradeQtyFor x : ℚ)) ts2 p2 hrec

theorem hedgeLoop_lookup (unds : List Underlying) :
    ∀ (net : List (ℤ × ℚ)) (pos : Position) (ts : List (ℤ × ℤ)) (p : Position),
      hedgeLoop unds net pos = some (ts, p) →
      ∀ k, lookupD p.underlying_quantity_by_underlying_id k 0 =
        lookupD pos.underlying_quantity_by_underlying_id k 0 + hedgeAdj net k := by
  intro net
  induction net with
  | nil =>
    intro pos ts p h k
    simp only [hedgeLoop, Option.some_inj, Prod.mk.injEq] at h
    rw [← h.2]
    simp [hedgeAdj]
  | cons e rest ih =>
    obtain ⟨uid, x⟩ := e
    intro pos ts p h k
    simp only [hedgeLoop] at h
    cases hres : resolveUnderlying unds uid with
    | none =>
      rw [hres] at h
      exact absurd h (by simp)
    | some u =>
      rw [hres] at h
      by_cases hband : |x| ≤ safeBand
      · rw [if_pos hband] at h
        rw [ih pos ts p h k]
        simp only [hedgeAdj]
        rw [if_neg (fun hc => hc.2 hband)]
        ring
      · rw [if_neg hband] at h
        by_cases hq0 : tradeQtyFor x = 0
        · rw [if_pos hq0] at h
          rw [ih pos ts p h k]
          simp only [hedgeAdj, hq0, Int.cast_zero, ite_self]
          ring
        · rw [if_neg hq0] at h
          cases hrec : hedgeLoop unds rest
              (add_underlying_quantity pos uid (tradeQtyFor x : ℚ)) with
          | none =>
            rw [hrec] at h
            exact absurd h (by simp)
          | some tp =>
            obtain ⟨ts2, p2⟩ := tp
            rw [hrec] at h
            simp only [Option.some_inj, Prod.mk.injEq] at h
            rw [← h.2]
            rw [ih _ ts2 p2 hrec k]
            show lookupD (updAdd pos.underlying_quantity_by_underlying_id uid
              (roundTo2 (tradeQtyFor x : ℚ))) k 0 + hedgeAdj rest k = _
            rw [lookupD_updAdd, roundTo2_intCast]
            simp only [hedgeAdj]
            by_cases hk : uid = k
            · rw [if_pos hk, if_pos ⟨hk, hband⟩]
              ring
            · rw [if_neg hk, if_neg (fun hc => hk hc.1)]
              ring

theorem hedgeLoop_keys (unds : List Underlying) :
    ∀ (net : List (ℤ × ℚ)) (pos : Position) (ts : List (ℤ × ℤ)) (p : Position),
      hedgeLoop unds net pos = some (ts, p) →
      ∀ x, x ∈ p.underlying_quantity_by_underlying_id.map Prod.fst →
        x ∈ pos.underlying_quantity_by_underlying_id.map Prod.fst ∨
          x ∈ net.map Prod.fst := by
  intro net
  induction net with
  | nil =>
    intro pos ts p h x hx
    simp only [hedgeLoop, Option.some_inj, Prod.mk.injEq] at h
    rw [← h.2] at hx
    exact Or.inl hx
  | cons e rest ih =>
    obtain ⟨uid, v⟩ := e
    intro pos ts p h x hx
    simp only [hedgeLoop] at h
    cases hres : resolveUnderlying unds uid with
    | none =>
      rw [hres] at h
      exact absurd h (by simp)
    | some u =>
      rw [hres] at h
      by_cases hband : |v| ≤ safeBand
      · rw [if_pos hband] at h
        rcases ih pos ts p h x hx with h1 | h1
        · exact Or.inl h1
        · exact Or.inr (by simp [h1])
      · rw [if_neg hband] at h
        by_cases hq0 : tradeQtyFor v = 0
        · rw [if_pos hq0] at h
          rcases ih pos ts p h x hx with h1 | h1
          · exact Or.inl h1
          · exact Or.inr (by simp [h1])
        · rw [if_neg hq0] at h
          cases hrec : hedgeLoop unds rest
              (add_underlying_quantity pos uid (tradeQtyFor v : ℚ)) with
          | none =>
            rw [hrec] at h
            exact absurd h (by simp)
          | some tp =>
            obtain ⟨ts2, p2⟩ := tp
            rw [hrec] at h
            simp only [Option.some_inj, Prod.mk.injEq] at h
            rw [← h.2] at hx
            rcases ih _ ts2 p2 hrec x hx with h1 | h1
            · have h2 : x ∈ (updAdd pos.underlying_quantity_by_underlying_id uid
                  (roundTo2 (tradeQtyFor v : ℚ))).map Prod.fst := h1
              rw [mem_keys_updAdd] at h2
              rcases h2 with h3 | h3
              · exact Or.inl h3
              · exact Or.inr (by simp [h3])
            · exact Or.inr (by simp [h1])

theorem hedgeLoop_nodup (unds : List Underlying) :
    ∀ (net : List (ℤ × ℚ)) (pos : Position) (ts : List (ℤ × ℤ)) (p : Position),
      hedgeLoop unds net pos = some (ts, p) →
      (pos.underlying_quantity_by_underlying_id.map Prod.fst).Nodup →
      (p.underlying_quantity_by_underlying_id.map Prod.fst).Nodup := by
  intro net
  induction net with
  | nil =>
    intro pos ts p h hn
    simp only [hedgeLoop, Option.some_inj, Prod.mk.injEq] at h
    rw [← h.2]
    exact hn
  | cons e rest ih =>
    obtain ⟨uid, v⟩ := e
    intro pos ts p h hn
    simp only [hedgeLoop] at h
    cases hres : resolveUnderlying unds uid with
    | none =>
      rw [hres] at h
      exact absurd h (by simp)
    | some u =>
      rw [hres] at h
      by_cases hband : |v| ≤ safeBand
      · rw [if_pos hband] at h
        exact ih pos ts p h hn
      · rw [if_neg hband] at h
        by_cases hq0 : tradeQtyFor v = 0
        · rw [if_pos hq0] at h
          exact ih pos ts p h hn
        · rw [if_neg hq0] at h
          cases hrec : hedgeLoop unds rest
              (add_underlying_quantity pos uid (tradeQtyFor v : ℚ)) with
          | none =>
            rw [hrec] at h
            exact absurd h (by simp)
          | some tp =>
            obtain ⟨ts2, p2⟩ := tp
            rw [hrec] at h
            simp only [Option.some_inj, Prod.mk.injEq] at h
            rw [← h.2]
            exact ih _ ts2 p2 hrec (nodup_keys_updAdd _ _ _ hn)

theorem hedgeLoop_resolves (unds : List Underlying) :
    ∀ (net : List (ℤ × ℚ)) (pos : Position) (ts : List (ℤ × ℤ)) (p : Position),
      hedgeLoop unds net pos = some (ts, p) →
      ∀ e ∈ net, (resolveUnderlying unds e.1).isSome := by
  intro net
  induction net with
  | nil =>
    intro pos ts p _ e he
    simp at he
  | cons e0 rest ih =>
    obtain ⟨uid, v⟩ := e0
    intro pos ts p h e he
    simp only [hedgeLoop] at h
    cases hres : resolveUnderlying unds uid with
    | none =>
      rw [hres] at h
      exact absurd h (by simp)
    | some u =>
      rw [hres] at h
      rcases List.mem_cons.mp he with h1 | h1
      · rw [h1]
        simp [hres]
      · by_cases hband : |v| ≤ safeBand
        · rw [if_pos hband] at h
          exact ih pos ts p h e h1
        · rw [if_neg hband] at h
          by_cases hq0 : tradeQtyFor v = 0
          · rw [if_pos hq0] at h
            exact ih pos ts p h e h1
          · rw [if_neg hq0] at h
            cases hrec : hedgeLoop unds rest
                (add_underlying_quantity pos uid (tradeQtyFor v : ℚ)) with
            | none =>
              rw [hrec] at h
              exact absurd h (by simp)
            | some tp =>
              obtain ⟨ts2, p2⟩ := tp
              exact ih _ ts2 p2 hrec e h1

theorem hedgeLoop_no_trades (unds : List Underlying) :
    ∀ (net : List (ℤ × ℚ)) (pos : Position),
      (∀ e ∈ net, (resolveUnderlying unds e.1).isSome) →
      (∀ e ∈ net, |e.2| ≤ safeBand ∨ tradeQtyFor e.2 = 0) →
      hedgeLoop unds net pos = some ([], pos) := by
  intro net
  induction net with
  | nil => intro pos _ _; rfl
  | cons e rest ih =>
    obtain ⟨uid, x⟩ := e
    intro pos hres hz
    have h1 := hres (uid, x) (by simp)
    cases hu : resolveUnderlying unds uid with
    | none =>
      rw [hu] at h1
      simp at h1
    | some u =>
      simp only [hedgeLoop]
      rw [hu]
      have ihr := ih pos (fun e he => hres e (List.mem_cons_of_mem _ he))
        (fun e he => hz e (List.mem_cons_of_mem _ he))
      rcases hz (uid, x) (by simp) with hb | hb
      · rw [if_pos hb]
        exact ihr
      · by_cases hband : |x| ≤ safeBand
        · rw [if_pos hband]
          exact ihr
        · rw [if_neg hband, if_pos hb]
          exact ihr

/-! ### Claim theorems: error branches, expiry pricing, gamma term, validation -/

/-- C1: the claim says an expired option (steps_until_expiry ≤ 0, resolvable
underlying) gets the quote `(max(intrinsic - 0.1, 0), intrinsic + 0.1)`.  The
code instead raises `NameError`: the expiry branch assigns `intrisic` but
evaluates `intrinsic`.  Here, on a spot-105 strike-100 expired call, the
embedded `make_market` reaches that defective branch. -/
theorem make_market_expiry_name_error :
    make_market [und2] optExpired = Except.error MMError.intrinsicNameError := by
  refine make_market_expired_aux [und2] optExpired und2 rfl ?_ (by norm_num [optExpired])
  intro h
  exact absurd h.2.1 (by norm_num [optExpired])

/-- C2: the claim says a "calm" option (jumpScale < 2, steps ≥ 3,
moneyness ≥ 0.10) gets a quote with spread at most 0.80.  The code instead
raises `UnboundLocalError`: the calm branch executes
`spread = min(spread, 0.80)` with `spread` never previously assigned.  Here a
calm input reaches that defective branch. -/
theorem make_market_calm_unbound_local :
    make_market [undCalm] optCalm = Except.error MMError.calmSpreadUnbound := by
  refine make_market_calm_aux [undCalm] optCalm undCalm rfl ⟨?_, ?_, ?_⟩
  · norm_num [jumpScale, undCalm, abs_of_nonneg (by norm_num : (0:ℚ) ≤ 1/2)]
  · norm_num [optCalm]
  · unfold moneyness undCalm optCalm
    rw [show |(100 : ℚ) - (120 : ℤ)| = 20 by rw [abs_sub_comm, abs_of_nonneg] <;> norm_num,
      max_eq_right (by norm_num : (1:ℚ) ≤ 100)]
    norm_num

/-- C6: for every option with `steps_until_expiry = 0` whose underlying
resolves, `price_option` returns exactly the intrinsic value
(`max(spot - strike, 0)` for a call, `max(strike - spot, 0)` for a put);
the lattice branch is not entered. -/
theorem price_option_expiry_intrinsic (unds : List Underlying) (opt : Opt)
    (u : Underlying) (hu : resolveUnderlying unds opt.underlying_id = some u)
    (hs : opt.steps_until_expiry = 0) :
    price_option unds opt =
      some (match opt.option_type with
        | OptionType.CALL => max (u.valuation - opt.strike) 0
        | OptionType.PUT => max ((opt.strike : ℚ) - u.valuation) 0) := by
  unfold price_option
  rw [hu]
  simp only [if_pos (le_of_eq hs)]
  cases opt.option_type <;> rfl

/-- Witness for C6: the expired spot-105 strike-100 call prices to 5. -/
theorem price_option_expiry_intrinsic_witness :
    price_option [und2] optExpired = some (max (und2.valuation - (optExpired.strike : ℚ)) 0) :=
  price_option_expiry_intrinsic [und2] optExpired und2 rfl rfl

/-! ### The lattice loop agrees with the spec's backward-induction recurrence -/

theorem backstep_getElem (p q : ℚ) :
    ∀ (l : List ℚ) (j : ℕ) (a b : ℚ), l[j]? = some a → l[j+1]? = some b →
      (backstep p q l)[j]? = some (p * b + q * a) := by
  intro l
  induction l with
  | nil => intro j a b ha _; simp at ha
  | cons x t ih =>
    intro j a b ha hb
    cases j with
    | zero =>
      cases t with
      | nil => simp at hb
      | cons y r =>
        rw [List.getElem?_cons_zero] at ha
        rw [List.getElem?_cons_succ, List.getElem?_cons_zero] at hb
        rw [backstep, List.getElem?_cons_zero]
        rw [Option.some_inj] at ha hb
        rw [ha, hb]
    | succ j =>
      cases t with
      | nil => simp at hb
      | cons y r =>
        rw [List.getElem?_cons_succ] at ha hb
        rw [backstep, List.getElem?_cons_succ]
        exact ih j a b ha hb

theorem iterate_backstep_getElem (p q : ℚ) (payoff : ℕ → ℚ) (steps : ℕ) (l : List ℚ)
    (hl : ∀ i, i ≤ steps → l[i]? = some (payoff i)) :
    ∀ k j, k + j ≤ steps →
      ((backstep p q)^[k] l)[j]? = some (specValue p q payoff k j) := by
  intro k
  induction k with
  | zero => intro j hj; simpa [specValue] using hl j (by omega)
  | succ k ih =>
    intro j hj
    rw [Function.iterate_succ_apply']
    have ha := ih j (by omega)
    have hb := ih (j + 1) (by omega)
    rw [specValue]
    exact backstep_getElem p q _ j _ _ ha hb

theorem priceLattice_eq_specValue (ot : OptionType) (steps : ℕ)
    (spot strike up down pUp pDown : ℚ) :
    priceLattice ot steps spot strike up down pUp pDown =
      specValue pUp pDown (latticePayoff ot strike spot up down steps) steps 0 := by
  have hl : ∀ i, i ≤ steps →
      (terminalValues ot strike spot up down steps)[i]? =
        some (latticePayoff ot strike spot up down steps i) := by
    intro i hi
    unfold terminalValues
    rw [List.getElem?_map, List.getElem?_range (by omega), Option.map_some']
  have h0 := iterate_backstep_getElem pUp pDown
    (latticePayoff ot strike spot up down steps) steps _ hl steps 0 (by omega)
  unfold priceLattice
  cases hc : (backstep pUp pDown)^[steps] (terminalValues ot strike spot up down steps) with
  | nil => rw [hc] at h0; simp at h0
  | cons a t =>
    rw [hc] at h0
    rw [List.getElem?_cons_zero, Option.some_inj] at h0
    simpa using h0

/-- C3: whenever `make_market` returns a quote on a valid input (snapshot
underlyings satisfying the construction invariants, resolvable underlying —
resolvability is implied by the returned quote), the quote satisfies
`bid ≤ offer` and `bid ≥ 0`. -/
theorem make_market_bid_le_offer (unds : List Underlying) (opt : Opt) (b o : ℚ)
    (hval : ∀ u ∈ unds, underlyingOk u)
    (h : make_market unds opt = Except.ok (b, o)) :
    b ≤ o ∧ 0 ≤ b := by
  obtain ⟨u, fair, hu, hp, hc, hs, hb, ho⟩ := make_market_ok_inv unds opt b o h
  have hu2 : unds.find? (fun v => v.underlying_id == opt.underlying_id) = some u := hu
  have hmem : u ∈ unds := List.mem_of_find?_eq_some hu2
  obtain ⟨hup, hdp⟩ := underlyingOk_probs u (hval u hmem)
  have hfair : 0 ≤ fair :=
    price_option_nonneg unds opt u fair hu (le_of_lt hup) (le_of_lt hdp) hp
  have hhalf : 0 ≤ mmSpread fair u opt / 2 := by
    have h1 := (mmSpread_bounds fair u opt (by omega)).1
    linarith
  constructor
  · rw [hb, ho]
    exact max_le (by linarith) (by linarith)
  · rw [hb]
    exact le_max_right _ _

/-- Witness for C3: on the worked scenario the quote is
(857/4000, 3143/4000) and satisfies the invariant. -/
theorem make_market_bid_le_offer_witness :
    make_market [und1] optA = Except.ok (857/4000, 3143/4000) ∧
      ((857:ℚ)/4000 ≤ 3143/4000 ∧ (0:ℚ) ≤ 857/4000) :=
  ⟨make_market_eval1,
    make_market_bid_le_offer [und1] optA (857/4000) (3143/4000)
      (by
        intro u hu
        rw [List.mem_singleton] at hu
        rw [hu]
        exact und1_ok)
      make_market_eval1⟩

/-- C4: whenever `make_market` returns a quote on a valid input, the spread
`offer - bid` lies between 0.03 and `10.0 + 0.10 * max(1, fairValue)` where
`fairValue = price_option(option)`. -/
theorem make_market_spread_bounds (unds : List Underlying) (opt : Opt) (b o fv : ℚ)
    (hval : ∀ u ∈ unds, underlyingOk u)
    (h : make_market unds opt = Except.ok (b, o))
    (hf : price_option unds opt = some fv) :
    3/100 ≤ o - b ∧ o - b ≤ 10 + 1/10 * max 1 fv := by
  obtain ⟨u, fair, hu, hp, hc, hs, hb, ho⟩ := make_market_ok_inv unds opt b o h
  have hfv : fair = fv := by
    rw [hp] at hf
    exact Option.some_inj.mp hf
  subst hfv
  have hu2 : unds.find? (fun v => v.underlying_id == opt.underlying_id) = some u := hu
  have hmem : u ∈ unds := List.mem_of_find?_eq_some hu2
  obtain ⟨hup, hdp⟩ := underlyingOk_probs u (hval u hmem)
  have hfair : 0 ≤ fair :=
    price_option_nonneg unds opt u fair hu (le_of_lt hup) (le_of_lt hdp) hp
  obtain ⟨hsl, hsu⟩ := mmSpread_bounds fair u opt (by omega)
  rw [hb, ho]
  by_cases hcase : 0 ≤ fair - mmSpread fair u opt / 2
  · rw [max_eq_left hcase]
    constructor <;> linarith
  · rw [max_eq_right (by linarith : fair - mmSpread fair u opt / 2 ≤ 0)]
    constructor <;> linarith

/-- Witness for C4: on the worked scenario the spread is 1143/2000 = 0.5715,
within [0.03, 10.1]. -/
theorem make_market_spread_bounds_witness :
    make_market [und1] optA = Except.ok (857/4000, 3143/4000) ∧
      price_option [und1] optA = some (1/2) ∧
      (3/100 ≤ (3143:ℚ)/4000 - 857/4000 ∧
        (3143:ℚ)/4000 - 857/4000 ≤ 10 + 1/10 * max 1 (1/2)) :=
  ⟨make_market_eval1, price_option_eval1,
    make_market_spread_bounds [und1] optA (857/4000) (3143/4000) (1/2)
      (by
        intro u hu
        rw [List.mem_singleton] at hu
        rw [hu]
        exact und1_ok)
      make_market_eval1 price_option_eval1⟩

/-- C9: the gamma risk term `0.03 * min(0, abs(gamma) * option_step_scale)`
is identically zero (its inner argument is nonnegative), so the risk spread
collapses to `0.15 * min(1, abs(delta))` for every input. -/
theorem gamma_term_always_zero :
    ∀ d g up down : ℚ,
      gammaTerm g (optionStepScale up down) = 0 ∧
      riskSpread d g (optionStepScale up down) = 15/100 * min 1 |d| := by
  intro d g up down
  refine ⟨gammaTerm_eq_zero g up down, ?_⟩
  unfold riskSpread deltaTerm
  rw [gammaTerm_eq_zero g up down]
  ring

/-- C5: for every option with positive steps remaining and a resolvable
underlying, `price_option` computes exactly the spec's backward induction
(`value[j] = pUp*value[j+1] + pDown*value[j]`, seeded with the terminal
payoffs at `spot + j*up_step - (steps-j)*down_step`); and on the spec's
worked scenario (valuation 100, steps 1/1, probabilities 1/2, 2-step call
at strike 100) it returns exactly 1/2. -/
theorem price_option_backward_induction :
    (∀ (unds : List Underlying) (opt : Opt) (u : Underlying),
      resolveUnderlying unds opt.underlying_id = some u →
      0 < opt.steps_until_expiry →
      price_option unds opt =
        some (specValue u.up_move_probability u.down_move_probability
          (latticePayoff opt.option_type opt.strike u.valuation
            u.up_move_step u.down_move_step opt.steps_until_expiry.toNat)
          opt.steps_until_expiry.toNat 0)) ∧
    price_option [und1] optA = some (1/2) := by
  constructor
  · intro unds opt u hu hs
    unfold price_option
    rw [hu]
    simp only [if_neg (not_le.mpr hs)]
    rw [priceLattice_eq_specValue]
  · exact price_option_eval1

/-- Witness for C5: the refinement applied to the worked scenario. -/
theorem price_option_backward_induction_witness :
    price_option [und1] optA =
      some (specValue und1.up_move_probability und1.down_move_probability
        (latticePayoff optA.option_type optA.strike und1.valuation
          und1.up_move_step und1.down_move_step optA.steps_until_expiry.toNat)
        optA.steps_until_expiry.toNat 0) :=
  price_option_backward_induction.1 [und1] optA und1 rfl (by decide)

/-- C8: during a hedger pass, the aggregated net delta of every underlying
equals its directly held quantity plus, for every active option with
nonzero held quantity on that underlying, the contribution
`heldQuantity * deltaEstimate` (the central-difference estimate against the
current snapshots), summed by `optContrib`. -/
theorem net_delta_aggregation (unds : List Underlying) (opts : List Opt)
    (pos : Position) (m : List (ℤ × ℚ))
    (h : computeNetDelta unds opts pos = some m) (k : ℤ) :
    lookupD m k 0 =
      lookupD pos.underlying_quantity_by_underlying_id k 0 +
        optContrib unds pos.option_quantity_by_option_id opts k :=
  netDeltaGo_lookup unds pos.option_quantity_by_option_id opts
    pos.underlying_quantity_by_underlying_id m h k

/-- Net-delta dict for the 2-option aggregation scenario: holding 2 calls
with delta 1/2 yields net delta 1 on underlying 1. -/
theorem computeNetDelta_eval :
    computeNetDelta [und1] [optA] posOpt2 = some [(1, 1)] := by
  norm_num [computeNetDelta, netDeltaGo, posOpt2, lookupD, resolveUnderlying, und1, optA,
    deltaEstimate, priceWithSpot, bumpSize, priceLattice, terminalValues, latticePayoff,
    intrinsicValue, backstep, List.range_succ, Function.iterate_succ_apply,
    show Int.toNat 2 = 2 from rfl, updAdd, max_def, min_def, abs_of_nonneg,
    abs_of_nonpos, abs_one]

/-- Witness for C8: the aggregation scenario, at underlying 1. -/
theorem net_delta_aggregation_witness :
    computeNetDelta [und1] [optA] posOpt2 = some [(1, 1)] ∧
      lookupD [(1, (1:ℚ))] 1 0 =
        lookupD posOpt2.underlying_quantity_by_underlying_id 1 0 +
          optContrib [und1] posOpt2.option_quantity_by_option_id [optA] 1 :=
  ⟨computeNetDelta_eval,
    net_delta_aggregation [und1] [optA] posOpt2 [(1, 1)] computeNetDelta_eval 1⟩

/-- C7: hedger idempotence.  If one `on_step_advance` hedger pass completes
(returning trades `t1` and position `p1`), then an immediate second pass on
the same snapshots with no intervening fills issues zero trade instructions
(and leaves the position unchanged).  The `Nodup` hypothesis states that the
position dictionary has unique keys, as Python dicts do. -/
theorem hedger_idempotent (unds : List Underlying) (opts : List Opt) (pos : Position)
    (hnd : (pos.underlying_quantity_by_underlying_id.map Prod.fst).Nodup)
    (t1 : List (ℤ × ℤ)) (p1 : Position)
    (h1 : on_step_advance unds opts pos = some (t1, p1)) :
    on_step_advance unds opts p1 = some ([], p1) := by
  unfold on_step_advance computeNetDelta at h1 ⊢
  cases hnet1 : netDeltaGo unds pos.option_quantity_by_option_id opts
      pos.underlying_quantity_by_underlying_id with
  | none =>
    rw [hnet1] at h1
    exact absurd h1 (by simp)
  | some net1 =>
    rw [hnet1] at h1
    have hoq := hedgeLoop_optQty unds net1 pos t1 p1 h1
    rw [hoq]
    obtain ⟨net2, hnet2⟩ := netDeltaGo_isSome unds pos.option_quantity_by_option_id opts
      pos.underlying_quantity_by_underlying_id net1
      p1.underlying_quantity_by_underlying_id hnet1
    simp only [hnet2]
    have hlook1 := netDeltaGo_lookup unds pos.option_quantity_by_option_id opts
      pos.underlying_quantity_by_underlying_id net1 hnet1
    have hkeys1 := netDeltaGo_keys unds pos.option_quantity_by_option_id opts
      pos.underlying_quantity_by_underlying_id net1 hnet1
    have hnd1 := netDeltaGo_nodup unds pos.option_quantity_by_option_id opts
      pos.underlying_quantity_by_underlying_id net1 hnet1 hnd
    have hlookP := hedgeLoop_lookup unds net1 pos t1 p1 h1
    have hkeysP := hedgeLoop_keys unds net1 pos t1 p1 h1
    have hndP := hedgeLoop_nodup unds net1 pos t1 p1 h1 hnd
    have hres1 := hedgeLoop_resolves unds net1 pos t1 p1 h1
    have hlook2 := netDeltaGo_lookup unds pos.option_quantity_by_option_id opts
      p1.underlying_quantity_by_underlying_id net2 hnet2
    have hkeys2 := netDeltaGo_keys unds pos.option_quantity_by_option_id opts
      p1.underlying_quantity_by_underlying_id net2 hnet2
    have hnd2 := netDeltaGo_nodup unds pos.option_quantity_by_option_id opts
      p1.underlying_quantity_by_underlying_id net2 hnet2 hndP
    have hsub : ∀ x, x ∈ net2.map Prod.fst → x ∈ net1.map Prod.fst := by
      intro x hx
      rcases (hkeys2 x).1 hx with hx2 | hx2
      · rcases hkeysP x hx2 with hx3 | hx3
        · exact (hkeys1 x).2 (Or.inl hx3)
        · exact hx3
      · exact (hkeys1 x).2 (Or.inr hx2)
    apply hedgeLoop_no_trades
    · intro e he
      have hm : e.1 ∈ net1.map Prod.fst := hsub e.1 (List.mem_map_of_mem Prod.fst he)
      rcases List.mem_map.mp hm with ⟨e1, he1, hee⟩
      have hr := hres1 e1 he1
      rw [hee] at hr
      exact hr
    · intro e he
      obtain ⟨uid, x2⟩ := e
      have hx2 : lookupD net2 uid 0 = x2 := lookupD_of_mem_nodup net2 uid x2 hnd2 he
      have hm : uid ∈ net1.map Prod.fst := hsub uid (List.mem_map_of_mem Prod.fst he)
      rcases List.mem_map.mp hm with ⟨e1, he1, hee⟩
      obtain ⟨uid1, x1⟩ := e1
      have hee2 : uid1 = uid := hee
      subst hee2
      have hx1 : lookupD net1 uid1 0 = x1 := lookupD_of_mem_nodup net1 uid1 x1 hnd1 he1
      have hadj := hedgeAdj_of_mem net1 uid1 x1 hnd1 he1
      have hchain : x2 = x1 + hedgeAdj net1 uid1 := by
        rw [← hx2, hlook2 uid1, hlookP uid1, ← hx1, hlook1 uid1]
        ring
      show |x2| ≤ safeBand ∨ tradeQtyFor x2 = 0
      by_cases hband : |x1| ≤ safeBand
      · left
        rw [hchain, hadj, if_neg (not_not_intro hband), add_zero]
        exact hband
      · rw [hadj, if_pos hband] at hchain
        rw [hchain]
        exact tradeQty_step_idem x1

/-- First hedger pass on the scenario holding 5 units of underlying 1:
sells 5 units and lands exactly on net delta 0. -/
theorem hedger_pass1_eval :
    on_step_advance [und1] [] posHedge = some ([(1, -5)], posHedged) := by
  norm_num [on_step_advance, computeNetDelta, netDeltaGo, posHedge, posHedged, hedgeLoop,
    resolveUnderlying, und1, safeBand, tradeQtyFor, roundHalfEven, roundTo2,
    add_underlying_quantity, updAdd, abs_of_nonneg, abs_of_nonpos]

/-- Witness for C7: the second pass on the hedged position issues no trades. -/
theorem hedger_idempotent_witness :
    on_step_advance [und1] [] posHedged = some ([], posHedged) :=
  hedger_idempotent [und1] [] posHedge (by simp [posHedge]) [(1, -5)] posHedged
    hedger_pass1_eval

/-- C10: `Underlying` construction fails exactly when a move step is ≤ 0, a
move probability is ≤ 0, the probabilities do not sum to exactly 1, or the
signed expected step exceeds 1e-5; and the drift check is one-sided, so
underlyings with arbitrarily negative signed expected step (arbitrarily
large positive drift) still construct. -/
theorem underlying_validation_iff :
    (∀ u : Underlying,
      underlyingOk u ↔
        ¬(u.down_move_step ≤ 0 ∨ u.up_move_step ≤ 0 ∨
          u.down_move_probability ≤ 0 ∨ u.up_move_probability ≤ 0 ∨
          u.down_move_probability + u.up_move_probability ≠ 1 ∨
          1/100000 < u.down_move_probability * u.down_move_step
            - u.up_move_probability * u.up_move_step)) ∧
    (∀ B : ℚ, ∃ u : Underlying,
      underlyingOk u ∧
        u.down_move_probability * u.down_move_step
          - u.up_move_probability * u.up_move_step < B) := by
  constructor
  · intro u
    rw [underlyingOk_iff]
    push_neg
    tauto
  · intro B
    have hB : 0 ≤ |B| := abs_nonneg B
    have hBB : -B ≤ |B| := neg_le_abs B
    refine ⟨Underlying.mk "D" 0 0 (1/2) 1 0 (1/2) (3 + 2 * |B|), ?_, ?_⟩
    · rw [underlyingOk_iff]
      refine ⟨by norm_num, by positivity, by norm_num, by norm_num, by norm_num, ?_⟩
      simp only
      linarith
    · simp only
      linarith

end AkunaMM
